import Mathlib

/-!
Verification development for the obsidian-avif plugin (src/main.ts).

The plugin's paste-to-embed pipeline is embedded shallowly:
JavaScript strings are modelled as `List Char` (sequences of code points),
the ambient host values (navigator.appVersion, clipboard reads, the vault
name, the moment-formatted date, the rendering of Math.random, the
attachment-folder setting, the active file's parent path) are explicit
parameters, and the two child-process invocations are modelled by a trace
of spawned command lines, with each completion callback applied to the
spawn outcome exactly as the nested callbacks in `getAvifPasteFile` are.
The Node `path` (posix) functions and the JS `encodeURI` / `decodeURI`
builtins used by the source are modelled after their documented semantics.
-/

/-- Sequence of code points: the model of a JavaScript string. -/
abbrev Str := List Char

/-- Coerce a Lean string literal into the `Str` model. -/
def str (s : String) : Str := s.data

/-- Model of JavaScript `String.prototype.indexOf` restricted to found /
not-found: `some n` is the least index where `t` occurs in `s`, `none`
models the return value `-1`. -/
def indexOf (t : Str) : Str → Option Nat
  | [] => if t.isPrefixOf [] then some 0 else none
  | c :: s' =>
    if t.isPrefixOf (c :: s') then some 0
    else (indexOf t (s' : Str)).map (· + 1)

/-- Model of JavaScript `String.prototype.substr start len` (non-negative
arguments, as used by the source: `.substr(2, 7)`). -/
def jsSubstr (start len : Nat) (s : Str) : Str := (s.drop start).take len

/-- Model of JavaScript `String.prototype.replace` with a plain-string
pattern: only the first occurrence is replaced; no occurrence leaves the
string unchanged. -/
def replaceFirst (pat rep : Str) : Str → Str
  | [] => if pat.isPrefixOf [] then rep else []
  | c :: s' =>
    if pat.isPrefixOf (c :: s') then rep ++ (c :: s').drop pat.length
    else c :: replaceFirst pat rep s'

/-- Model of JavaScript `String.prototype.split` with a one-character
separator: 'a\nb'.split gives ["a","b"], ''.split gives [""]. -/
def splitOnChar (sep : Char) : Str → List Str
  | [] => [[]]
  | c :: cs =>
    if c = sep then [] :: splitOnChar sep cs
    else
      match splitOnChar sep cs with
      | [] => [[c]]
      | l :: ls => (c :: l) :: ls

/-- Inverse of `splitOnChar`: interleave the separator back. -/
def joinWith (sep : Char) : List Str → Str
  | [] => []
  | [l] => l
  | l :: l2 :: ls => l ++ sep :: joinWith sep (l2 :: ls)

/-- Model of the ASCII lower-casing performed by
`String.prototype.toLowerCase` on the extension strings the source
compares (all ASCII). -/
def jsToLower (s : Str) : Str := s.map Char.toLower

/-! Node `path.posix` model (the plugin imports `extname`, `resolve`,
`join` from `path`). -/

/-- Trailing `/` characters, ignored by `extname`. -/
def stripTrailingSlashes (p : Str) : Str := (p.reverse.dropWhile (· = '/')).reverse

/-- The basename `extname` works on: the part after the last `/` once
trailing slashes are dropped. -/
def basenamePart (p : Str) : Str :=
  ((stripTrailingSlashes p).reverse.takeWhile (· ≠ '/')).reverse

/-- Suffix of `b` starting at its last `.` (empty when `b` has no dot). -/
def extTail : Str → Str
  | [] => []
  | c :: rest =>
    match extTail rest with
    | [] => if c = '.' then c :: rest else []
    | t => t

/-- Model of Node `path.posix.extname`: the extension is the basename's
suffix from its last dot, except that a dot-free basename, a basename
whose only dot is its first character (".foo", "."), and the basename
".." all yield the empty extension — exactly the cases in which Node's
`preDotState` scan returns the empty string. -/
def extname (p : Str) : Str :=
  let b := basenamePart p
  let e := extTail b
  if e = [] then []
  else if e.length = b.length then []
  else if b = str ".." then []
  else e

/-- Node `normalizeString` segment processing: drop empty and `.`
segments, let `..` pop the previous segment, and keep `..` only when
`allowAboveRoot` is set. The accumulator holds processed segments in
reverse order. -/
def normSegs (allow : Bool) : List Str → List Str → List Str
  | acc, [] => acc
  | acc, seg :: rest =>
    if seg = [] ∨ seg = ['.'] then normSegs allow acc rest
    else if seg = ['.', '.'] then
      match acc with
      | [] => if allow then normSegs allow [seg] rest else normSegs allow [] rest
      | a :: as =>
        if a = ['.', '.'] then
          if allow then normSegs allow (seg :: a :: as) rest else normSegs allow (a :: as) rest
        else normSegs allow as rest
    else normSegs allow (seg :: acc) rest

/-- Model of Node `normalizeString`: resolve `.` and `..` segments and
collapse repeated slashes; the result carries neither a leading nor a
trailing slash. -/
def normalizeString (p : Str) (allow : Bool) : Str :=
  joinWith '/' ((normSegs allow [] (splitOnChar '/' p)).reverse)

/-- Model of Node `path.posix.normalize`. -/
def posixNormalize (p : Str) : Str :=
  if p = [] then str "."
  else
    let isAbs := p.head? = some '/'
    let trailing := p.getLast? = some '/'
    let n := normalizeString p (!isAbs)
    if n = [] then
      if isAbs then str "/" else if trailing then str "./" else str "."
    else
      let n2 := if trailing then n ++ str "/" else n
      if isAbs then str "/" ++ n2 else n2

/-- Model of two-argument Node `path.posix.join`: empty arguments are
skipped, the rest are slash-joined and normalized. -/
def posixJoin (a b : Str) : Str :=
  if a = [] ∧ b = [] then str "."
  else if a = [] then posixNormalize b
  else if b = [] then posixNormalize a
  else posixNormalize (a ++ str "/" ++ b)

/-- The accumulation loop of Node `path.posix.resolve`: paths are taken
right to left (each followed by a slash) until an absolute one is found;
the Bool records whether an absolute path was reached. -/
def resolveRTL (acc : Str) : List Str → Str × Bool
  | [] => (acc, false)
  | p :: ps =>
    if p = [] then resolveRTL acc ps
    else
      let acc2 := p ++ '/' :: acc
      if p.head? = some '/' then (acc2, true) else resolveRTL acc2 ps

/-- Model of Node `path.posix.resolve`, with the process working
directory `cwd` as the final fallback component. -/
def posixResolve (cwd : Str) (parts : List Str) : Str :=
  let r := resolveRTL [] (parts.reverse ++ [cwd])
  let n := normalizeString r.1 (!r.2)
  if r.2 then str "/" ++ n
  else if n = [] then str "." else n

/-! Model of the JavaScript `decodeURI` / `encodeURI` builtins used by
`getFileAssetPath` and `getFileName`. -/

/-- Value of a hexadecimal digit character. -/
def hexVal (c : Char) : Option Nat :=
  let n := c.toNat
  if 48 ≤ n ∧ n ≤ 57 then some (n - 48)
  else if 65 ≤ n ∧ n ≤ 70 then some (n - 55)
  else if 97 ≤ n ∧ n ≤ 102 then some (n - 87)
  else none

/-- Lexical item of a URI: a raw character, or a `%`-escape carrying its
byte value and its two original hex digits. -/
inductive UriTok where
  | raw (c : Char)
  | esc (b : Nat) (h1 h2 : Char)
deriving DecidableEq

/-- Tokenize a string for `decodeURI`: every `%` must be followed by two
hex digits (`none` models the URIError thrown otherwise). -/
def uriTokens : Str → Option (List UriTok)
  | [] => some []
  | '%' :: h1 :: h2 :: rest =>
    match hexVal h1, hexVal h2 with
    | some x, some y => (uriTokens rest).map (UriTok.esc (16 * x + y) h1 h2 :: ·)
    | _, _ => none
  | '%' :: _ => none
  | c :: rest => (uriTokens rest).map (UriTok.raw c :: ·)

/-- Characters whose escapes `decodeURI` leaves untouched (the URI
reserved set plus the hash sign). -/
def decodeReservedSet : Str := str "#$&+,/:;=?@"

/-- Recombination phase of `decodeURI`: escapes are decoded as UTF-8
(with continuation-byte, overlong, surrogate and range checks; `none`
models URIError), except that escapes of reserved characters are kept in
their original spelling. -/
def utf8Assemble : List UriTok → Option Str
  | [] => some []
  | UriTok.raw c :: rest => (utf8Assemble rest).map (fun t => c :: t)
  | UriTok.esc b h1 h2 :: rest =>
    if b < 128 then
      let c := Char.ofNat b
      if decodeReservedSet.contains c then
        (utf8Assemble rest).map (fun t => '%' :: h1 :: h2 :: t)
      else (utf8Assemble rest).map (fun t => c :: t)
    else if 194 ≤ b ∧ b ≤ 223 then
      match rest with
      | UriTok.esc b2 _ _ :: rest2 =>
        if 128 ≤ b2 ∧ b2 ≤ 191 then
          (utf8Assemble rest2).map (fun t => Char.ofNat ((b - 192) * 64 + (b2 - 128)) :: t)
        else none
      | _ => none
    else if 224 ≤ b ∧ b ≤ 239 then
      match rest with
      | UriTok.esc b2 _ _ :: UriTok.esc b3 _ _ :: rest2 =>
        if 128 ≤ b2 ∧ b2 ≤ 191 ∧ 128 ≤ b3 ∧ b3 ≤ 191 then
          let cp := (b - 224) * 4096 + (b2 - 128) * 64 + (b3 - 128)
          if 2048 ≤ cp ∧ (cp < 55296 ∨ 57343 < cp) then
            (utf8Assemble rest2).map (fun t => Char.ofNat cp :: t)
          else none
        else none
      | _ => none
    else if 240 ≤ b ∧ b ≤ 244 then
      match rest with
      | UriTok.esc b2 _ _ :: UriTok.esc b3 _ _ :: UriTok.esc b4 _ _ :: rest2 =>
        if 128 ≤ b2 ∧ b2 ≤ 191 ∧ 128 ≤ b3 ∧ b3 ≤ 191 ∧ 128 ≤ b4 ∧ b4 ≤ 191 then
          let cp := (b - 240) * 262144 + (b2 - 128) * 4096 + (b3 - 128) * 64 + (b4 - 128)
          if 65536 ≤ cp ∧ cp ≤ 1114111 then
            (utf8Assemble rest2).map (fun t => Char.ofNat cp :: t)
          else none
        else none
      | _ => none
    else none

/-- Model of the JavaScript `decodeURI` builtin; `none` models a thrown
URIError. -/
def decodeURI (s : Str) : Option Str := (uriTokens s).bind utf8Assemble

/-- Characters `encodeURI` leaves unescaped: ASCII alphanumerics, the
URI marks, and the reserved set plus the hash sign. -/
def uriKeep (c : Char) : Bool :=
  c.isAlphanum ||
    (str "-_.!~*;/?:@&=+$,#" ++ [Char.ofNat 39, Char.ofNat 40, Char.ofNat 41]).contains c

/-- UTF-8 bytes of one code point. -/
def utf8Bytes (c : Char) : List Nat :=
  let n := c.toNat
  if n < 128 then [n]
  else if n < 2048 then [192 + n / 64, 128 + n % 64]
  else if n < 65536 then [224 + n / 4096, 128 + (n / 64) % 64, 128 + n % 64]
  else [240 + n / 262144, 128 + (n / 4096) % 64, 128 + (n / 64) % 64, 128 + n % 64]

/-- Upper-case hexadecimal digit. -/
def hexDigit (n : Nat) : Char := if n < 10 then Char.ofNat (48 + n) else Char.ofNat (55 + n)

/-- One percent-escaped byte, upper-case as `encodeURI` produces. -/
def percentByte (b : Nat) : Str := ['%', hexDigit (b / 16), hexDigit (b % 16)]

/-- Model of the JavaScript `encodeURI` builtin (total here: Lean `Char`
cannot hold the lone surrogates that make the real builtin throw). -/
def encodeURI (s : Str) : Str :=
  s.flatMap fun c => if uriKeep c then [c] else (utf8Bytes c).flatMap percentByte

/-! Embedding of src/main.ts. -/

/-- One entry of `evt.clipboardData.files`; only its declared MIME type
is inspected by the source. -/
structure FileItem where
  type : Str
deriving DecidableEq

/-- A read of the system clipboard at paste time: the file list plus the
two platform-specific clipboard formats the source reads
(`clipboard.read "FileNameW"` and `clipboard.read "public.file-url"`). -/
structure ClipboardSnapshot where
  files : List FileItem
  fileNameW : Str
  fileUrl : Str
deriving DecidableEq

/-- Embedding of `getOS` (src/main.ts:157-168): substring checks on
`navigator.appVersion` in the order Win, Mac, X11. -/
def getOS (appVersion : Str) : Str :=
  if (indexOf (str "Win") appVersion).isSome then str "Windows"
  else if (indexOf (str "Mac") appVersion).isSome then str "MacOS"
  else if (indexOf (str "X11") appVersion).isSome then str "Linux"
  else str "Unknown OS"

/-- Embedding of `isAssetTypeAnImage` (src/main.ts:150-156): the
lower-cased `extname` of the path is one of the seven image extensions. -/
def isAssetTypeAnImage (path : Str) : Bool :=
  [str ".png", str ".jpg", str ".jpeg", str ".bmp", str ".gif", str ".svg",
    str ".tiff"].contains (jsToLower (extname path))

/-- Embedding of `isCopyImageFile` (src/main.ts:133-149): build a file
path from the platform-specific clipboard read (Windows: strip NUL
characters from `FileNameW`; MacOS: drop the first `file://` of
`public.file-url`; otherwise the empty string) and test its extension. -/
def isCopyImageFile (os : Str) (snap : ClipboardSnapshot) : Bool :=
  let filePath :=
    if os = str "Windows" then snap.fileNameW.filter (fun c => c != Char.ofNat 0)
    else if os = str "MacOS" then replaceFirst (str "file://") [] snap.fileUrl
    else []
  isAssetTypeAnImage filePath

/-- Embedding of the paste-handler condition (src/main.ts:97-101):
`isCopyImageFile() || files.length !== 0 || files[0].type.startsWith("image")`
with JavaScript left-to-right short-circuit evaluation. `none` models the
TypeError thrown by `files[0].type` when the file list is empty. -/
def pasteCondition (os : Str) (snap : ClipboardSnapshot) : Option Bool :=
  if isCopyImageFile os snap then some true
  else if snap.files.length ≠ 0 then some true
  else
    match snap.files.head? with
    | none => none
    | some f => some ((str "image").isPrefixOf f.type)

/-- Editor state for the selection-based mutation: the document text
around the current selection. -/
structure SelEditor where
  before : Str
  selected : Str
  after : Str
deriving DecidableEq

/-- Full document text held by a `SelEditor`. -/
def docText (e : SelEditor) : Str := e.before ++ e.selected ++ e.after

/-- Model of `editor.replaceSelection`: the selected span is replaced by
the given text and the selection collapses after it. -/
def replaceSelection (e : SelEditor) (s : Str) : SelEditor :=
  { before := e.before ++ s, selected := [], after := e.after }

/-- Embedding of static `getFileName` (src/main.ts:173-175). -/
def getFileName (fn : Str) : Str := str "file:///" ++ encodeURI fn

/-- Embedding of `insertTemporaryText` (src/main.ts:169-171): replace the
selection with the markdown embed of `getFileName` plus a newline. -/
def insertTemporaryText (e : SelEditor) (progressText : Str) : SelEditor :=
  replaceSelection e ((str "![](" ++ getFileName progressText ++ str ")") ++ str "\n")

/-- Embedding of static `progressTextFor` (src/main.ts:196-198). -/
def progressTextFor (id : Str) : Str := str "![Uploading file..." ++ id ++ str "]()"

/-- The scan of `replaceFirstOccurrence`'s loop (src/main.ts:205-214):
the first line index holding the target together with `indexOf`'s column
in that line, `none` when no line contains the target. -/
def findFirstLine (t : Str) : List Str → Option (Nat × Nat)
  | [] => none
  | l :: ls =>
    match indexOf t l with
    | some ch => some (0, ch)
    | none => (findFirstLine t ls).map (fun p => (p.1 + 1, p.2))

/-- Character offset in the flat document text of position (line `i`,
column `ch`) with respect to the given newline-split lines: the model of
a CodeMirror `{line, ch}` position. -/
def lineOffset : List Str → Nat → Nat → Nat
  | _, 0, ch => ch
  | [], _ + 1, ch => ch
  | l :: ls, i + 1, ch => l.length + 1 + lineOffset ls i ch

/-- Model of `editor.replaceRange text rep from to` on the flat document
text, with both positions already converted to character offsets. -/
def replaceRange (text rep : Str) (fromOff toOff : Nat) : Str :=
  text.take fromOff ++ rep ++ text.drop toOff

/-- Embedding of static `replaceFirstOccurrence` (src/main.ts:200-215):
split `editor.getValue()` on newlines, find the first line containing the
target and the target's `indexOf` column there, and `replaceRange` the
span of that occurrence with the replacement; without a hit the loop
falls through and the document is untouched. -/
def replaceFirstOccurrence (target rep text : Str) : Str :=
  match findFirstLine target (splitOnChar '\n' text) with
  | none => text
  | some (i, ch) =>
    replaceRange text rep (lineOffset (splitOnChar '\n' text) i ch)
      (lineOffset (splitOnChar '\n' text) i (ch + target.length))

/-- Embedding of `embedMarkDownImage` (src/main.ts:176-185). -/
def embedMarkDownImage (text pasteId imageUrl : Str) : Str :=
  replaceFirstOccurrence (progressTextFor pasteId) (str "![](" ++ imageUrl ++ str ")") text

/-- Embedding of `handleFailedUpload` (src/main.ts:187-195). -/
def handleFailedUpload (text pasteId : Str) : Str :=
  replaceFirstOccurrence (progressTextFor pasteId)
    (str "⚠️upload failed, check dev console") text

/-- Embedding of `getFileAssetPath` (src/main.ts:216-235): an
attachment-folder setting starting with "./" is joined onto
`decodeURI(resolve(basePath, activeFile.parent.path))`, any other
setting is joined onto the vault base path. `none` models the URIError
`decodeURI` can throw; `cwd` is the process working directory `resolve`
falls back to. -/
def getFileAssetPath (cwd basePath assetFolder parentPath : Str) : Option Str :=
  if (str "./").isPrefixOf assetFolder then
    (decodeURI (posixResolve cwd [basePath, parentPath])).map
      (fun activeFolder => posixJoin activeFolder assetFolder)
  else some (posixJoin basePath assetFolder)

/-- Paths and command lines computed by one `getAvifPasteFile` call
(src/main.ts:112-131). -/
structure AvifPasteResult where
  pngPath : Str
  fullAvifPath : Str
  pngpasteCmd : Str
  encodeCmd : Str
deriving DecidableEq

/-- Embedding of the path arithmetic of `getAvifPasteFile`
(src/main.ts:112-131). The ambient values are parameters: `vaultName` is
`adapter.getName()`, `dateStr` the moment "-YYYYMMDD-" rendering of the
current date, `randStr` the base-36 rendering `(Math.random() + 1).toString(36)`,
`avifExe` the configured encoder path, and `assetDir` the string returned
by `getFileAssetPath`. -/
def getAvifPasteFile (vaultName dateStr randStr avifExe assetDir : Str) : AvifPasteResult :=
  let randomPrefix := vaultName ++ dateStr ++ jsSubstr 2 7 randStr
  let pngPath := randomPrefix ++ str ".png"
  let avifPath := randomPrefix ++ str ".avif"
  let fullAvifPath := assetDir ++ str "/" ++ avifPath
  { pngPath := pngPath
    fullAvifPath := fullAvifPath
    pngpasteCmd := str "/usr/local/bin/pngpaste /tmp/" ++ pngPath
    encodeCmd := avifExe ++ str " --fast -e /tmp/" ++ pngPath ++ str " -o \x22" ++
      fullAvifPath ++ str "\x22" }

/-- The temporary raw-dump path of a paste: the `/tmp/<prefix>.png`
argument passed to pngpaste and to the encoder's `-e` flag. -/
def temporaryRawPath (r : AvifPasteResult) : Str := str "/tmp/" ++ r.pngPath

/-- Completion data `child_process.exec` hands a callback: `error` is
`none` on success and carries the failure (spawn error or nonzero exit
code) otherwise. -/
structure ExecResult where
  error : Option Int
  stdout : Str
  stderr : Str
deriving DecidableEq

/-- Model of `execute` (src/main.ts:17-22) as a spawn trace: the command
is spawned, and the completion callback — which may spawn further
commands — is applied to the outcome the environment assigns to the
command, whatever that outcome is. -/
def execute (env : Str → ExecResult) (cmd : Str) (cb : ExecResult → List Str) : List Str :=
  cmd :: cb (env cmd)

/-- Spawn trace of the conversion chain of `getAvifPasteFile`
(src/main.ts:125-129): pngpaste is spawned, and its completion callback
spawns the encoder with a callback that spawns nothing further. Both
callbacks ignore the reported outcome, exactly as the arrow functions in
the source do. -/
def conversionTrace (env : Str → ExecResult) (r : AvifPasteResult) : List Str :=
  execute env r.pngpasteCmd fun _r1 =>
    execute env r.encodeCmd fun _r2 => []

/-- Observable effect of one paste event: whether the image branch ran,
whether the handler threw, which commands were spawned, and the document
once the callback chain has completed. -/
structure PasteResult where
  processed : Bool
  errored : Bool
  spawned : List Str
  doc : SelEditor
deriving DecidableEq

/-- Embedding of the editor-paste handler (src/main.ts:87-110) composed
with the conversion chain it starts: any platform other than MacOS
returns immediately; on MacOS the clipboard condition is evaluated (its
TypeError surfacing as `errored`), and a positive classification runs
`getAvifPasteFile`, whose callback chain spawns the two commands and then
inserts the embed text over the selection. -/
def editorPaste (appVersion : Str) (snap : ClipboardSnapshot) (env : Str → ExecResult)
    (vaultName dateStr randStr avifExe assetDir : Str) (ed : SelEditor) : PasteResult :=
  let os := getOS appVersion
  if os ≠ str "MacOS" then
    { processed := false, errored := false, spawned := [], doc := ed }
  else
    match pasteCondition os snap with
    | none => { processed := false, errored := true, spawned := [], doc := ed }
    | some false => { processed := false, errored := false, spawned := [], doc := ed }
    | some true =>
      let r := getAvifPasteFile vaultName dateStr randStr avifExe assetDir
      { processed := true, errored := false, spawned := conversionTrace env r,
        doc := insertTemporaryText ed r.fullAvifPath }

/-! Definitions written from the specification's words, for comparison
with the source-derived definitions above. -/

/-- Spec condition (a) of the MacOS classifier: the clipboard file-URL
resolves to a path whose lower-cased extension is a recognized image
extension. -/
def specCondA (snap : ClipboardSnapshot) : Bool :=
  isAssetTypeAnImage (replaceFirst (str "file://") [] snap.fileUrl)

/-- Spec condition (b): the clipboard file-list length is nonzero. -/
def specCondB (snap : ClipboardSnapshot) : Bool := snap.files.length != 0

/-- Spec condition (c): the first file's declared type begins with
"image" (vacuously false when there is no first file). -/
def specCondC (snap : ClipboardSnapshot) : Bool :=
  match snap.files.head? with
  | none => false
  | some f => (str "image").isPrefixOf f.type

/-- Claim C5's description of the Path Resolver, following the spec's
words: a "./"-prefixed setting resolves via `resolve(activeDocumentFolder,
setting)` (instead of the source's `join`), anything else via
`join(rootPath, setting)`. -/
def pathResolverSpecC5 (cwd basePath assetFolder parentPath : Str) : Option Str :=
  if (str "./").isPrefixOf assetFolder then
    (decodeURI (posixResolve cwd [basePath, parentPath])).map
      (fun activeFolder => posixResolve cwd [activeFolder, assetFolder])
  else some (posixJoin basePath assetFolder)

/-! Helper lemmas about the string model. -/

/-- Bool-level `isPrefixOf` agrees with the `<+:` order. -/
theorem isPrefixOf_true_iff : ∀ (p s : Str), p.isPrefixOf s = true ↔ p <+: s
  | [], s => by simp [List.isPrefixOf]
  | a :: as, [] => by simp [List.isPrefixOf]
  | a :: as, b :: bs => by
    simp [List.isPrefixOf, List.cons_prefix_cons, isPrefixOf_true_iff as bs]

/-- Where `indexOf` reports a hit, the needle is a prefix of the drop at
that index, the index is in range, and no smaller index carries it. -/
theorem indexOf_some_spec (t : Str) : ∀ (s : Str) (n : Nat), indexOf t s = some n →
    n ≤ s.length ∧ t <+: s.drop n ∧ ∀ m, m < n → ¬ t <+: s.drop m := by
  intro s
  induction s with
  | nil =>
    intro n h
    unfold indexOf at h
    by_cases hp : t.isPrefixOf ([] : Str) = true
    · rw [if_pos hp] at h
      injection h with h
      subst h
      exact ⟨Nat.le_refl 0, (isPrefixOf_true_iff t []).mp hp, by omega⟩
    · rw [if_neg hp] at h
      cases h
  | cons c s' ih =>
    intro n h
    unfold indexOf at h
    by_cases hp : t.isPrefixOf (c :: s') = true
    · rw [if_pos hp] at h
      injection h with h
      subst h
      exact ⟨Nat.zero_le _, (isPrefixOf_true_iff _ _).mp hp, by omega⟩
    · rw [if_neg hp] at h
      cases e : indexOf t s' with
      | none => rw [e] at h; cases h
      | some k =>
        rw [e] at h
        simp only [Option.map_some'] at h
        injection h with h
        subst h
        obtain ⟨hk, hpre, hno⟩ := ih k e
        refine ⟨by simp only [List.length_cons]; omega, ?_, ?_⟩
        · simpa using hpre
        · intro m hm
          cases m with
          | zero =>
            intro hc
            exact hp ((isPrefixOf_true_iff _ _).mpr (by simpa using hc))
          | succ m' =>
            intro hc
            exact hno m' (by omega) (by simpa using hc)

/-- Where `indexOf` reports no hit, the needle is nowhere in the string. -/
theorem indexOf_none_spec (t : Str) : ∀ s : Str, indexOf t s = none →
    ∀ k, ¬ t <+: s.drop k := by
  intro s
  induction s with
  | nil =>
    intro h k
    unfold indexOf at h
    by_cases hp : t.isPrefixOf ([] : Str) = true
    · rw [if_pos hp] at h; cases h
    · rw [if_neg hp] at h
      intro hc
      exact hp ((isPrefixOf_true_iff _ _).mpr (by simpa using hc))
  | cons c s' ih =>
    intro h k
    unfold indexOf at h
    by_cases hp : t.isPrefixOf (c :: s') = true
    · rw [if_pos hp] at h; cases h
    · rw [if_neg hp] at h
      cases e : indexOf t s' with
      | some j => rw [e] at h; cases h
      | none =>
        cases k with
        | zero =>
          intro hc
          exact hp ((isPrefixOf_true_iff _ _).mpr (by simpa using hc))
        | succ k' =>
          intro hc
          exact ih e k' (by simpa using hc)

/-- A newline-free needle that is a prefix of `a ++ '\n' :: b` already
fits inside `a`. -/
theorem prefix_append_nl_iff (t a b : Str) (h : '\n' ∉ t) :
    t <+: a ++ '\n' :: b ↔ t <+: a := by
  constructor
  · intro hp
    rcases hp with ⟨u, hu⟩
    have h1 : (t ++ u).take t.length = t := by
      rw [List.take_append_eq_append_take]
      simp
    have ht : t = (a ++ '\n' :: b).take t.length := by
      have hc := congrArg (List.take t.length) hu
      rw [h1] at hc
      exact hc
    rw [List.take_append_eq_append_take] at ht
    by_cases hl : t.length ≤ a.length
    · rw [show t.length - a.length = 0 by omega] at ht
      simp only [List.take_zero, List.append_nil] at ht
      rw [ht]
      exact List.take_prefix _ _
    · exfalso
      apply h
      have e2 : ('\n' :: b).take (t.length - a.length) =
          '\n' :: b.take (t.length - a.length - 1) := by
        cases e : t.length - a.length with
        | zero => omega
        | succ k => simp [List.take_succ_cons]
      rw [ht, e2]
      simp
  · intro hp
    exact hp.trans (List.prefix_append _ _)

/-- The function `splitOnChar` never returns the empty list. -/
theorem splitOnChar_ne_nil (sep : Char) : ∀ s : Str, splitOnChar sep s ≠ []
  | [] => by simp [splitOnChar]
  | c :: cs => by
    unfold splitOnChar
    by_cases hc : c = sep
    · simp [hc]
    · rw [if_neg hc]
      cases e : splitOnChar sep cs <;> simp

/-- Joining the split of a string restores the string. -/
theorem joinWith_splitOnChar (sep : Char) : ∀ s : Str, joinWith sep (splitOnChar sep s) = s
  | [] => by simp [splitOnChar, joinWith]
  | c :: cs => by
    have ih := joinWith_splitOnChar sep cs
    unfold splitOnChar
    by_cases hc : c = sep
    · rw [if_pos hc]
      cases e : splitOnChar sep cs with
      | nil => exact absurd e (splitOnChar_ne_nil sep cs)
      | cons l ls =>
        rw [e] at ih
        subst hc
        simp [joinWith, ih]
    · rw [if_neg hc]
      cases e : splitOnChar sep cs with
      | nil => exact absurd e (splitOnChar_ne_nil sep cs)
      | cons l ls =>
        rw [e] at ih
        cases ls with
        | nil =>
          simp only [joinWith] at ih ⊢
          rw [ih]
        | cons l2 ls2 =>
          simp only [joinWith, List.cons_append] at ih ⊢
          rw [ih]

/-- If some line contains the target, the loop of
`replaceFirstOccurrence` finds a line. -/
theorem findFirstLine_isSome (t : Str) : ∀ lines : List Str,
    (∃ l ∈ lines, (indexOf t l).isSome) → (findFirstLine t lines).isSome := by
  intro lines
  induction lines with
  | nil => rintro ⟨l, hl, -⟩; cases hl
  | cons l ls ih =>
    rintro ⟨l0, hl0, hsome⟩
    unfold findFirstLine
    cases e : indexOf t l with
    | some ch => simp
    | none =>
      rcases List.mem_cons.mp hl0 with rfl | hmem
      · rw [e] at hsome; cases hsome
      · have := ih ⟨l0, hmem, hsome⟩
        cases e2 : findFirstLine t ls with
        | none => rw [e2] at this; cases this
        | some p => simp

/-- Positional offset is linear in the column argument. -/
theorem lineOffset_add (n : Nat) : ∀ (lines : List Str) (i ch : Nat),
    lineOffset lines i (ch + n) = lineOffset lines i ch + n
  | [], 0, _ => rfl
  | _ :: _, 0, _ => rfl
  | [], _ + 1, _ => rfl
  | l :: ls, i + 1, ch => by
    simp only [lineOffset, lineOffset_add n ls i ch]
    omega

/-- When the line scan finds nothing, the target occurs nowhere in the
joined document text (the line list is nonempty, as every `splitOnChar`
image is). -/
theorem findFirstLine_none_spec (t : Str) (hnl : '\n' ∉ t) :
    ∀ (l : Str) (ls : List Str), findFirstLine t (l :: ls) = none →
      ∀ k, ¬ t <+: (joinWith '\n' (l :: ls)).drop k := by
  intro l ls
  induction ls generalizing l with
  | nil =>
    intro h k
    unfold findFirstLine at h
    cases e : indexOf t l with
    | some ch => rw [e] at h; cases h
    | none => simpa [joinWith] using indexOf_none_spec t l e k
  | cons l2 ls2 ih =>
    intro h k
    unfold findFirstLine at h
    cases e : indexOf t l with
    | some ch => rw [e] at h; cases h
    | none =>
      rw [e] at h
      have h2 : findFirstLine t (l2 :: ls2) = none := by
        cases e2 : findFirstLine t (l2 :: ls2) with
        | none => rfl
        | some p => rw [e2] at h; cases h
      have hj : joinWith '\n' (l :: l2 :: ls2) =
          l ++ '\n' :: joinWith '\n' (l2 :: ls2) := by
        simp [joinWith]
      rw [hj]
      by_cases hk : k ≤ l.length
      · rw [List.drop_append_eq_append_drop, show k - l.length = 0 by omega]
        simp only [List.drop_zero]
        intro hc
        exact indexOf_none_spec t l e k ((prefix_append_nl_iff t _ _ hnl).mp hc)
      · rw [List.drop_append_eq_append_drop,
          show l.drop k = [] from List.drop_eq_nil_of_le (by omega)]
        have e3 : ('\n' :: joinWith '\n' (l2 :: ls2)).drop (k - l.length) =
            (joinWith '\n' (l2 :: ls2)).drop (k - l.length - 1) := by
          cases e4 : k - l.length with
          | zero => omega
          | succ m => simp [List.drop_succ_cons]
        rw [List.nil_append, e3]
        exact ih l2 h2 (k - l.length - 1)

/-- Where the line scan finds line `i` and column `ch`, that position is
the first occurrence of the target in the joined document text. -/
theorem findFirstLine_some_spec (t : Str) (hnl : '\n' ∉ t) :
    ∀ (lines : List Str) (i ch : Nat), findFirstLine t lines = some (i, ch) →
      t <+: (joinWith '\n' lines).drop (lineOffset lines i ch) ∧
      ∀ k, k < lineOffset lines i ch → ¬ t <+: (joinWith '\n' lines).drop k := by
  intro lines
  induction lines with
  | nil => intro i ch h; cases h
  | cons l ls ih =>
    intro i ch h
    unfold findFirstLine at h
    cases e : indexOf t l with
    | some c0 =>
      rw [e] at h
      injection h with h
      obtain ⟨rfl, rfl⟩ : 0 = i ∧ c0 = ch := by
        constructor <;> [exact congrArg Prod.fst h; exact congrArg Prod.snd h]
      obtain ⟨hchle, hpre, hno⟩ := indexOf_some_spec t l _ e
      cases ls with
      | nil =>
        simp only [joinWith, lineOffset]
        exact ⟨hpre, fun k hk hc => hno k hk hc⟩
      | cons l2 ls2 =>
        have hj : joinWith '\n' (l :: l2 :: ls2) =
            l ++ '\n' :: joinWith '\n' (l2 :: ls2) := by
          simp [joinWith]
        rw [hj]
        simp only [lineOffset]
        constructor
        · rw [List.drop_append_eq_append_drop, show c0 - l.length = 0 by omega]
          simp only [List.drop_zero]
          exact hpre.trans (List.prefix_append _ _)
        · intro k hk
          rw [List.drop_append_eq_append_drop, show k - l.length = 0 by omega]
          simp only [List.drop_zero]
          intro hc
          exact hno k hk ((prefix_append_nl_iff t _ _ hnl).mp hc)
    | none =>
      rw [e] at h
      cases e2 : findFirstLine t ls with
      | none => rw [e2] at h; cases h
      | some p =>
        obtain ⟨i', ch'⟩ := p
        rw [e2] at h
        simp only [Option.map_some'] at h
        injection h with h
        have hi : i' + 1 = i := congrArg Prod.fst h
        have hch : ch' = ch := congrArg Prod.snd h
        subst hi
        subst hch
        obtain ⟨l2, ls2, rfl⟩ : ∃ l2 ls2, ls = l2 :: ls2 := by
          cases ls with
          | nil => rw [show findFirstLine t ([] : List Str) = none from rfl] at e2; cases e2
          | cons a b => exact ⟨a, b, rfl⟩
        obtain ⟨ihpre, ihno⟩ := ih i' ch' e2
        have hj : joinWith '\n' (l :: l2 :: ls2) =
            l ++ '\n' :: joinWith '\n' (l2 :: ls2) := by
          simp [joinWith]
        rw [hj]
        simp only [lineOffset]
        constructor
        · rw [List.drop_append_eq_append_drop,
            show List.drop (l.length + 1 + lineOffset (l2 :: ls2) i' ch') l = [] from
              List.drop_eq_nil_of_le (by omega),
            List.nil_append,
            show l.length + 1 + lineOffset (l2 :: ls2) i' ch' - l.length
                = lineOffset (l2 :: ls2) i' ch' + 1 by omega]
          simp only [List.drop_succ_cons]
          exact ihpre
        · intro k hk
          by_cases hkl : k ≤ l.length
          · rw [List.drop_append_eq_append_drop, show k - l.length = 0 by omega]
            simp only [List.drop_zero]
            intro hc
            exact indexOf_none_spec t l e k ((prefix_append_nl_iff t _ _ hnl).mp hc)
          · rw [List.drop_append_eq_append_drop,
              show List.drop k l = [] from List.drop_eq_nil_of_le (by omega),
              List.nil_append]
            have e3 : ('\n' :: joinWith '\n' (l2 :: ls2)).drop (k - l.length) =
                (joinWith '\n' (l2 :: ls2)).drop (k - l.length - 1) := by
              cases e4 : k - l.length with
              | zero => omega
              | succ m => simp [List.drop_succ_cons]
            rw [e3]
            exact ihno (k - l.length - 1) (by omega)

/-- The placeholder token spelled with its leading character exposed. -/
theorem progressText_cons (id : Str) :
    progressTextFor id = '!' :: (str "[Uploading file..." ++ id ++ str "]()") := rfl

/-- The placeholder token is never the empty string. -/
theorem progressText_ne_nil (id : Str) : progressTextFor id ≠ [] := by
  rw [progressText_cons]
  simp

/-- A newline-free id yields a newline-free placeholder token. -/
theorem nl_not_mem_progressText (id : Str) (h : '\n' ∉ id) : '\n' ∉ progressTextFor id := by
  intro hc
  rw [progressTextFor] at hc
  rcases List.mem_append.mp hc with h12 | h3
  · rcases List.mem_append.mp h12 with h1 | h2
    · exact absurd h1 (by decide)
    · exact h h2
  · exact absurd h3 (by decide)

/-- Claim C6: when the placeholder token occurs on more than one line of
the document text, `replaceFirstOccurrence` rewrites exactly the span of
the first (topmost, leftmost) occurrence — the result is the prefix
before that span, the replacement, and the suffix after it, so every
character outside the span is unchanged. -/
theorem c6_replace_first_occurrence_span (id rep text : Str)
    (hnl : '\n' ∉ id)
    (hdup : 2 ≤ ((splitOnChar '\n' text).filter
      (fun l => (indexOf (progressTextFor id) l).isSome)).length) :
    ∃ off, off + (progressTextFor id).length ≤ text.length ∧
      progressTextFor id <+: text.drop off ∧
      (∀ k, k < off → ¬ progressTextFor id <+: text.drop k) ∧
      replaceFirstOccurrence (progressTextFor id) rep text =
        text.take off ++ rep ++ text.drop (off + (progressTextFor id).length) := by
  have hnt : '\n' ∉ progressTextFor id := nl_not_mem_progressText id hnl
  have hmem : ∃ l ∈ splitOnChar '\n' text, (indexOf (progressTextFor id) l).isSome := by
    have hpos : 0 < ((splitOnChar '\n' text).filter
        (fun l => (indexOf (progressTextFor id) l).isSome)).length := by omega
    obtain ⟨l, hl⟩ := List.exists_mem_of_length_pos hpos
    exact ⟨l, (List.mem_filter.mp hl).1, (List.mem_filter.mp hl).2⟩
  have hsome := findFirstLine_isSome (progressTextFor id) _ hmem
  obtain ⟨⟨i, ch⟩, e⟩ := Option.isSome_iff_exists.mp hsome
  obtain ⟨hpre, hno⟩ := findFirstLine_some_spec (progressTextFor id) hnt _ i ch e
  rw [joinWith_splitOnChar] at hpre hno
  refine ⟨lineOffset (splitOnChar '\n' text) i ch, ?_, hpre, hno, ?_⟩
  · have hlen := hpre.length_le
    rw [List.length_drop] at hlen
    have hne : (progressTextFor id).length ≠ 0 := by
      intro hz
      exact progressText_ne_nil id (List.length_eq_zero.mp hz)
    omega
  · unfold replaceFirstOccurrence
    rw [e]
    simp only [lineOffset_add, replaceRange]

/-- Claim C7: when the placeholder token occurs nowhere in the document
text, `replaceFirstOccurrence` is a silent no-op: the document comes back
unchanged (the embedding is a total function, so no error reaches the
caller). -/
theorem c7_replace_no_occurrence_noop (id rep text : Str) (hnl : '\n' ∉ id)
    (habs : ∀ k, k ≤ text.length → ¬ progressTextFor id <+: text.drop k) :
    replaceFirstOccurrence (progressTextFor id) rep text = text := by
  have hnt := nl_not_mem_progressText id hnl
  cases e : findFirstLine (progressTextFor id) (splitOnChar '\n' text) with
  | none => unfold replaceFirstOccurrence; rw [e]
  | some p =>
    exfalso
    obtain ⟨i, ch⟩ := p
    obtain ⟨hpre, -⟩ := findFirstLine_some_spec (progressTextFor id) hnt _ i ch e
    rw [joinWith_splitOnChar] at hpre
    by_cases hk : lineOffset (splitOnChar '\n' text) i ch ≤ text.length
    · exact habs _ hk hpre
    · have hdp : text.drop (lineOffset (splitOnChar '\n' text) i ch) = [] :=
        List.drop_eq_nil_of_le (by omega)
      rw [hdp] at hpre
      exact progressText_ne_nil id (List.prefix_nil.mp hpre)

/-- Witness for C6 at a concrete two-line document holding the token
twice. -/
theorem c6_replace_first_occurrence_span_witness :
    ∃ off,
      off + (progressTextFor (str "a")).length ≤
        (str "![Uploading file...a]()\n![Uploading file...a]()").length ∧
      progressTextFor (str "a") <+:
        (str "![Uploading file...a]()\n![Uploading file...a]()").drop off ∧
      (∀ k, k < off → ¬ progressTextFor (str "a") <+:
        (str "![Uploading file...a]()\n![Uploading file...a]()").drop k) ∧
      replaceFirstOccurrence (progressTextFor (str "a")) (str "R")
          (str "![Uploading file...a]()\n![Uploading file...a]()") =
        (str "![Uploading file...a]()\n![Uploading file...a]()").take off ++ str "R" ++
          (str "![Uploading file...a]()\n![Uploading file...a]()").drop
            (off + (progressTextFor (str "a")).length) :=
  c6_replace_first_occurrence_span (str "a") (str "R")
    (str "![Uploading file...a]()\n![Uploading file...a]()") (by decide) (by decide)

/-- Witness for C7 at a concrete token-free document. -/
theorem c7_replace_no_occurrence_noop_witness :
    replaceFirstOccurrence (progressTextFor (str "a")) (str "R") (str "hello") = str "hello" :=
  c7_replace_no_occurrence_noop (str "a") (str "R") (str "hello") (by decide) (by decide)

/-! Helper lemmas for the Path Resolver claim. -/

/-- Head of an append with a nonempty left part. -/
theorem head?_append_left (l₁ l₂ : Str) (h : l₁ ≠ []) : (l₁ ++ l₂).head? = l₁.head? := by
  cases l₁ with
  | nil => exact absurd rfl h
  | cons a as => rfl

/-- Last element of an append with a nonempty right part. -/
theorem getLast?_append_right (l₁ l₂ : Str) (h : l₂ ≠ []) :
    (l₁ ++ l₂).getLast? = l₂.getLast? := by
  induction l₁ with
  | nil => rfl
  | cons x xs ih =>
    cases e : xs ++ l₂ with
    | nil => exact absurd (List.append_eq_nil.mp e).2 h
    | cons y ys =>
      rw [List.cons_append, e, List.getLast?_cons_cons, ← e, ih]

/-- Splitting after appending one separator appends one empty segment. -/
theorem splitOnChar_append_sep (sep : Char) : ∀ s : Str,
    splitOnChar sep (s ++ [sep]) = splitOnChar sep s ++ [[]]
  | [] => by simp [splitOnChar]
  | c :: cs => by
    have ih := splitOnChar_append_sep sep cs
    rw [List.cons_append]
    unfold splitOnChar
    by_cases hc : c = sep
    · rw [if_pos hc, if_pos hc, ih]
      rfl
    · rw [if_neg hc, if_neg hc, ih]
      cases e : splitOnChar sep cs with
      | nil => exact absurd e (splitOnChar_ne_nil sep cs)
      | cons l ls => rfl

/-- A final empty segment is invisible to the `normalizeString` fold. -/
theorem normSegs_append_empty (allow : Bool) : ∀ (segs : List Str) (acc : List Str),
    normSegs allow acc (segs ++ [[]]) = normSegs allow acc segs := by
  intro segs
  induction segs with
  | nil => intro acc; simp [normSegs]
  | cons seg rest ih =>
    intro acc
    rw [List.cons_append]
    by_cases h1 : seg = [] ∨ seg = ['.']
    · simp only [normSegs, if_pos h1]
      exact ih acc
    · by_cases h2 : seg = ['.', '.']
      · cases acc with
        | nil =>
          cases allow <;> simp only [normSegs, if_neg h1, if_pos h2, Bool.false_eq_true,
            if_false, if_true] <;> exact ih _
        | cons a as =>
          by_cases h3 : a = ['.', '.']
          · cases allow <;> simp only [normSegs, if_neg h1, if_pos h2, if_pos h3,
              Bool.false_eq_true, if_false, if_true] <;> exact ih _
          · simp only [normSegs, if_neg h1, if_pos h2, if_neg h3]
            exact ih as
      · simp only [normSegs, if_neg h1, if_neg h2]
        exact ih _

/-- One trailing slash does not change `normalizeString`'s result. -/
theorem normalizeString_append_slash (p : Str) (allow : Bool) :
    normalizeString (p ++ ['/']) allow = normalizeString p allow := by
  unfold normalizeString
  rw [splitOnChar_append_sep, normSegs_append_empty]

/-- With an absolute working directory, the `resolve` loop always ends
absolute. -/
theorem resolveRTL_abs (cwd : Str) (hc : cwd.head? = some '/') :
    ∀ (l : List Str) (acc : Str), (resolveRTL acc (l ++ [cwd])).2 = true := by
  have hne : cwd ≠ [] := by intro h; rw [h] at hc; cases hc
  intro l
  induction l with
  | nil =>
    intro acc
    rw [List.nil_append]
    simp [resolveRTL, hne, hc]
  | cons p ps ih =>
    intro acc
    rw [List.cons_append]
    by_cases hp : p = []
    · simp [resolveRTL, hp, ih]
    · by_cases hh : p.head? = some '/'
      · simp [resolveRTL, hp, hh]
      · simp [resolveRTL, hp, hh, ih]

/-- With an absolute working directory, every `resolve` result is
absolute. -/
theorem posixResolve_head (cwd : Str) (parts : List Str) (hc : cwd.head? = some '/') :
    (posixResolve cwd parts).head? = some '/' := by
  have habs := resolveRTL_abs cwd hc parts.reverse []
  simp only [posixResolve, habs, if_true]
  rfl

/-- The tokenizer passes a leading slash through unchanged. -/
theorem uriTokens_slash (s : Str) :
    uriTokens ('/' :: s) = (uriTokens s).map (UriTok.raw '/' :: ·) := rfl

/-- The builtin model `decodeURI` keeps a leading slash. -/
theorem decodeURI_slash_head (s t : Str) (h : decodeURI ('/' :: s) = some t) :
    t.head? = some '/' := by
  unfold decodeURI at h
  rw [uriTokens_slash] at h
  cases e : uriTokens s with
  | none => rw [e] at h; cases h
  | some toks =>
    rw [e] at h
    simp only [Option.map_some', Option.some_bind] at h
    rw [show utf8Assemble (UriTok.raw '/' :: toks) =
        (utf8Assemble toks).map (fun u => '/' :: u) from rfl] at h
    cases e2 : utf8Assemble toks with
    | none => rw [e2] at h; cases h
    | some u =>
      rw [e2] at h
      simp only [Option.map_some'] at h
      injection h with h
      rw [← h]
      rfl

/-- On an absolute left part and a relative, non-slash-terminated right
part, Node `join` and Node `resolve` agree. -/
theorem posixJoin_eq_posixResolve (cwd d a : Str) (hd : d.head? = some '/')
    (hane : a ≠ []) (hhead : a.head? ≠ some '/') (hlast : a.getLast? ≠ some '/') :
    posixJoin d a = posixResolve cwd [d, a] := by
  have hdne : d ≠ [] := by intro h; rw [h] at hd; cases hd
  have hL : posixJoin d a = posixNormalize ((d ++ str "/") ++ a) := by
    unfold posixJoin
    rw [if_neg (by intro hcon; exact hdne hcon.1), if_neg hdne, if_neg hane]
  have hdsne : d ++ str "/" ≠ [] := by
    intro hcon
    exact hdne (List.append_eq_nil.mp hcon).1
  have hpne : (d ++ str "/") ++ a ≠ [] := by
    intro hcon
    exact hdsne (List.append_eq_nil.mp hcon).1
  have hph : ((d ++ str "/") ++ a).head? = some '/' := by
    rw [head?_append_left _ _ hdsne, head?_append_left _ _ hdne, hd]
  have hpl : ((d ++ str "/") ++ a).getLast? = a.getLast? := getLast?_append_right _ _ hane
  have hstep : resolveRTL [] (a :: d :: [cwd]) = (d ++ '/' :: (a ++ ['/']), true) := by
    simp [resolveRTL, hane, hhead, hdne, hd]
  have hR : posixResolve cwd [d, a] =
      str "/" ++ normalizeString (d ++ '/' :: (a ++ ['/'])) false := by
    have hrev : ([d, a] : List Str).reverse ++ [cwd] = a :: d :: [cwd] := by simp
    simp only [posixResolve, hrev, hstep, if_true, Bool.not_true]
  have hmid : d ++ '/' :: (a ++ ['/']) = (((d ++ str "/") ++ a) ++ ['/'] : Str) := by
    show d ++ '/' :: (a ++ ['/']) = ((d ++ ['/']) ++ a) ++ ['/']
    simp
  rw [hL, hR, hmid, normalizeString_append_slash]
  unfold posixNormalize
  rw [if_neg hpne]
  simp only [hph, hpl, if_true, if_neg hlast, decide_True, Bool.not_true]
  by_cases hn : normalizeString ((d ++ str "/") ++ a) false = []
  · rw [if_pos hn, hn, List.append_nil]
  · rw [if_neg hn]

/-- Counterexample to claim C5 as stated: with the attachment-folder
setting "./a/" the source's `join(activeFolder, setting)` keeps the
trailing slash while the claimed `resolve(activeFolder, setting)` strips
it, so the two disagree. -/
theorem c5_resolver_counterexample :
    getFileAssetPath (str "/") (str "/v") (str "./a/") (str "") ≠
      pathResolverSpecC5 (str "/") (str "/v") (str "./a/") (str "") := by decide

/-- Claim C5 amended: with an absolute working directory and a setting
that does not end in a slash, the source's resolver agrees with the
claimed resolve/join description on every input (and on "./"-settings it
is literally `join(activeFolder, setting)`). -/
theorem c5_resolver_amended (cwd basePath assetFolder parentPath : Str)
    (hcwd : cwd.head? = some '/') (hlast : assetFolder.getLast? ≠ some '/') :
    getFileAssetPath cwd basePath assetFolder parentPath =
      pathResolverSpecC5 cwd basePath assetFolder parentPath := by
  unfold getFileAssetPath pathResolverSpecC5
  by_cases hp : (str "./").isPrefixOf assetFolder = true
  · rw [if_pos hp, if_pos hp]
    cases e : decodeURI (posixResolve cwd [basePath, parentPath]) with
    | none => rfl
    | some af =>
      simp only [Option.map_some']
      obtain ⟨u, hu⟩ := (isPrefixOf_true_iff _ _).mp hp
      have hane : assetFolder ≠ [] := by
        rw [← hu]
        intro hcon
        exact absurd (List.append_eq_nil.mp hcon).1 (by decide)
      have hh0 : assetFolder.head? = some '.' := by rw [← hu]; rfl
      have hhead : assetFolder.head? ≠ some '/' := by
        rw [hh0]
        intro hcon
        injection hcon with hcon
        exact absurd hcon (by decide)
      have habs : (posixResolve cwd [basePath, parentPath]).head? = some '/' :=
        posixResolve_head cwd _ hcwd
      have hafh : af.head? = some '/' := by
        obtain ⟨rest, hrest⟩ : ∃ rest, posixResolve cwd [basePath, parentPath] = '/' :: rest := by
          cases hres : posixResolve cwd [basePath, parentPath] with
          | nil => rw [hres] at habs; cases habs
          | cons x xs =>
            rw [hres] at habs
            injection habs with hx
            exact ⟨xs, by rw [hx]⟩
        rw [hrest] at e
        exact decodeURI_slash_head _ _ e
      exact congrArg some (posixJoin_eq_posixResolve cwd af assetFolder hafh hane hhead hlast)
  · rw [if_neg hp, if_neg hp]

/-- Witness for the amended C5 at concrete inputs exercising the
"./"-branch. -/
theorem c5_resolver_amended_witness :
    getFileAssetPath (str "/") (str "/v") (str "./a") (str "d") =
      pathResolverSpecC5 (str "/") (str "/v") (str "./a") (str "d") :=
  c5_resolver_amended (str "/") (str "/v") (str "./a") (str "d") (by decide) (by decide)

/-- Claim C1 evaluation (code bug): on MacOS with an empty file list and
a clipboard file-URL with no recognized image extension, the classifier
does not return false — evaluating `files[0].type` throws (modelled by
`none`), exactly the out-of-bounds access the spec says must be
guarded. -/
theorem c1_classifier_empty_files_typeerror :
    isCopyImageFile (str "MacOS") ⟨[], str "", str ""⟩ = false ∧
    pasteCondition (str "MacOS") ⟨[], str "", str ""⟩ = none := by decide

/-- Claim C2 evaluation (code bug): with an environment in which the
pngpaste job reports a failure (error code 1), the conversion chain
still spawns the encoder command — the completion callback never checks
Job 1's outcome. -/
theorem c2_encoder_spawned_after_job1_failure :
    ((fun _ : Str => ({ error := some 1, stdout := [], stderr := [] } : ExecResult))
        ((getAvifPasteFile (str "v") (str "-20261012-") (str "1.deadbee")
          (str "/usr/local/bin/avif") (str "/va")).pngpasteCmd)).error = some 1 ∧
    (getAvifPasteFile (str "v") (str "-20261012-") (str "1.deadbee")
        (str "/usr/local/bin/avif") (str "/va")).encodeCmd ∈
      conversionTrace (fun _ => { error := some 1, stdout := [], stderr := [] })
        (getAvifPasteFile (str "v") (str "-20261012-") (str "1.deadbee")
          (str "/usr/local/bin/avif") (str "/va")) := by
  refine ⟨rfl, ?_⟩
  simp [conversionTrace, execute]

/-- Claim C3: whenever the MacOS classifier returns a decision at all,
that decision is the OR of the spec's three conditions (file-URL image
extension, nonzero file-list length, first file's type starting with
"image"). -/
theorem c3_mac_classifier_or (snap : ClipboardSnapshot) (d : Bool)
    (h : pasteCondition (str "MacOS") snap = some d) :
    d = (specCondA snap || specCondB snap || specCondC snap) := by
  have hW : ¬ (str "MacOS" = str "Windows") := by decide
  have hA : isCopyImageFile (str "MacOS") snap = specCondA snap := by
    simp [isCopyImageFile, specCondA, hW]
  unfold pasteCondition at h
  rw [hA] at h
  by_cases ha : specCondA snap = true
  · rw [if_pos ha] at h
    injection h with h
    subst h
    simp [ha]
  · rw [if_neg ha] at h
    cases hfs : snap.files with
    | nil =>
      rw [hfs] at h
      simp at h
    | cons f fs =>
      rw [hfs] at h
      rw [if_pos (by simp)] at h
      injection h with h
      subst h
      simp [specCondB, hfs]

/-- Witness for C3 with a nonempty file list on MacOS. -/
theorem c3_mac_classifier_or_witness :
    pasteCondition (str "MacOS") ⟨[⟨str "image/png"⟩], str "", str ""⟩ = some true ∧
    true = (specCondA ⟨[⟨str "image/png"⟩], str "", str ""⟩ ||
      specCondB ⟨[⟨str "image/png"⟩], str "", str ""⟩ ||
      specCondC ⟨[⟨str "image/png"⟩], str "", str ""⟩) :=
  ⟨by decide, c3_mac_classifier_or _ true (by decide)⟩

/-- Claim C4: on any platform other than MacOS the paste handler returns
at once — no process is spawned and the document is untouched. -/
theorem c4_non_macos_declines (appVersion : Str) (snap : ClipboardSnapshot)
    (env : Str → ExecResult) (vaultName dateStr randStr avifExe assetDir : Str)
    (ed : SelEditor) (h : getOS appVersion ≠ str "MacOS") :
    editorPaste appVersion snap env vaultName dateStr randStr avifExe assetDir ed =
      { processed := false, errored := false, spawned := [], doc := ed } := by
  simp only [editorPaste]
  rw [if_pos h]

/-- Witness for C4 on a Linux appVersion string. -/
theorem c4_non_macos_declines_witness :
    editorPaste (str "5.0 (X11; Linux x86_64)") ⟨[⟨str "image/png"⟩], str "", str ""⟩
        (fun _ => { error := none, stdout := [], stderr := [] })
        (str "v") (str "-20261012-") (str "1.deadbee") (str "/usr/bin/avif") (str "/va")
        ⟨str "b", str "s", str "a"⟩ =
      { processed := false, errored := false, spawned := [],
        doc := ⟨str "b", str "s", str "a"⟩ } :=
  c4_non_macos_declines _ _ _ _ _ _ _ _ _ (by decide)

/-- Counterexample to claim C8 as stated: when `(Math.random() + 1)`
renders as "1.i" (the value 1.5), the sliced token is "i", so no
7-character token makes the temporary path fit the claimed shape. -/
theorem c8_seven_char_token_counterexample :
    ¬ ∃ tok : Str, tok.length = 7 ∧
      temporaryRawPath (getAvifPasteFile (str "v") (str "-20261012-") (str "1.i")
          (str "/usr/bin/avif") (str "/va")) =
        str "/tmp/" ++ (str "v" ++ str "-20261012-" ++ tok ++ str ".png") := by
  rintro ⟨tok, hlen, heq⟩
  have hlen2 := congrArg List.length heq
  rw [show (temporaryRawPath (getAvifPasteFile (str "v") (str "-20261012-") (str "1.i")
      (str "/usr/bin/avif") (str "/va"))).length = 21 from by decide] at hlen2
  simp only [List.length_append, hlen,
    show (str "/tmp/").length = 5 from by decide,
    show (str "v").length = 1 from by decide,
    show (str "-20261012-").length = 10 from by decide,
    show (str ".png").length = 4 from by decide] at hlen2
  omega

/-- Claim C8 amended: both paths are built from the vault name, the
moment date string and the token `substr 2 7` of the random rendering —
the temporary raw path under /tmp with extension .png, the final path
under the resolved attachment directory with extension .avif, sharing
the same random prefix; the token's length is `min 7 (n - 2)` (7 for any
rendering of at least 9 characters, shorter otherwise). -/
theorem c8_paths_amended (vaultName dateStr randStr avifExe assetDir : Str) :
    temporaryRawPath (getAvifPasteFile vaultName dateStr randStr avifExe assetDir) =
      str "/tmp/" ++ (vaultName ++ dateStr ++ jsSubstr 2 7 randStr ++ str ".png") ∧
    (getAvifPasteFile vaultName dateStr randStr avifExe assetDir).fullAvifPath =
      assetDir ++ str "/" ++ (vaultName ++ dateStr ++ jsSubstr 2 7 randStr ++ str ".avif") ∧
    (jsSubstr 2 7 randStr).length = min 7 (randStr.length - 2) := by
  refine ⟨rfl, rfl, ?_⟩
  simp [jsSubstr]

/-- Claim C9: the inserted display URI is "file:///" followed by the
URI-encoded final path, and the selection is replaced by exactly the
markdown embed of that URI followed by a newline. -/
theorem c9_insert_selection_embed (ed : SelEditor) (fn : Str) :
    docText (insertTemporaryText ed fn) =
      ed.before ++ (str "![](" ++ (str "file:///" ++ encodeURI fn) ++ str ")" ++ str "\n")
        ++ ed.after ∧
    (insertTemporaryText ed fn).selected = [] := by
  constructor
  · simp [docText, insertTemporaryText, replaceSelection, getFileName, List.append_assoc]
  · rfl

/-- Claim C10: `getOS` returns one of the four fixed strings, and the
substring checks happen in the order Win, Mac, X11 — in particular any
appVersion containing both "Win" and "Mac" yields "Windows". -/
theorem c10_getos_order (appVersion : Str) :
    (getOS appVersion = str "Windows" ∨ getOS appVersion = str "MacOS" ∨
      getOS appVersion = str "Linux" ∨ getOS appVersion = str "Unknown OS") ∧
    ((indexOf (str "Win") appVersion).isSome = true →
      getOS appVersion = str "Windows") ∧
    ((indexOf (str "Win") appVersion).isSome = true ∧
        (indexOf (str "Mac") appVersion).isSome = true →
      getOS appVersion = str "Windows") ∧
    ((indexOf (str "Win") appVersion).isSome = false →
      (indexOf (str "Mac") appVersion).isSome = true →
      getOS appVersion = str "MacOS") ∧
    ((indexOf (str "Win") appVersion).isSome = false →
      (indexOf (str "Mac") appVersion).isSome = false →
      (indexOf (str "X11") appVersion).isSome = true →
      getOS appVersion = str "Linux") := by
  unfold getOS
  by_cases hw : (indexOf (str "Win") appVersion).isSome = true
  · rw [if_pos hw]
    refine ⟨Or.inl rfl, fun _ => rfl, fun _ => rfl, ?_, ?_⟩
    · intro hfalse _
      rw [hw] at hfalse
      cases hfalse
    · intro hfalse _ _
      rw [hw] at hfalse
      cases hfalse
  · rw [if_neg hw]
    by_cases hm : (indexOf (str "Mac") appVersion).isSome = true
    · rw [if_pos hm]
      refine ⟨Or.inr (Or.inl rfl), fun hc => absurd hc hw, fun hc => absurd hc.1 hw,
        fun _ _ => rfl, ?_⟩
      intro _ hfalse _
      rw [hm] at hfalse
      cases hfalse
    · rw [if_neg hm]
      by_cases hx : (indexOf (str "X11") appVersion).isSome = true
      · rw [if_pos hx]
        exact ⟨Or.inr (Or.inr (Or.inl rfl)), fun hc => absurd hc hw,
          fun hc => absurd hc.1 hw, fun _ hc => absurd hc hm, fun _ _ _ => rfl⟩
      · rw [if_neg hx]
        exact ⟨Or.inr (Or.inr (Or.inr rfl)), fun hc => absurd hc hw,
          fun hc => absurd hc.1 hw, fun _ hc => absurd hc hm,
          fun _ _ hc => absurd hc hx⟩

/-- Witness for C10 on a string containing both "Win" and "Mac". -/
theorem c10_getos_order_witness :
    (indexOf (str "Win") (str "WinMac")).isSome = true ∧
    (indexOf (str "Mac") (str "WinMac")).isSome = true ∧
    getOS (str "WinMac") = str "Windows" :=
  ⟨by decide, by decide, (c10_getos_order (str "WinMac")).2.2.1 ⟨by decide, by decide⟩⟩
